import Mathlib

/-!
Verification of the vfstool layered virtual file system core.

The development shallowly embeds the Rust sources:
  * `normalize_path` (dw_vfs_lib/src/lib.rs)
  * the merged-map builder `VFS::from_directories` and the query functions
    (vfstool_lib/src/vfs.rs), with `HashMap` insertion sequences modelled as
    association lists where the last binding for a key wins
  * `VfsFile::open` and the FO4 chunked reader (vfstool_lib/src/vfs_file.rs)
  * `DirectoryNode::filter` and `VFS::tree_filtered`
    (src/directory_node.rs, vfstool_lib/src/vfs.rs)

Byte paths are modelled as `List Nat` (each element one byte).
-/

namespace Vfstool

/-- One byte of `normalize_path` (dw_vfs_lib/src/lib.rs:28-32):
backslash becomes forward slash, ASCII uppercase is lowered by adding 32,
every other byte is kept. -/
def normByte (b : Nat) : Nat :=
  if b = 92 then 47
  else if 65 ≤ b ∧ b ≤ 90 then b + 32
  else b

/-- `normalize_path` (dw_vfs_lib/src/lib.rs:22-36): map `normByte` over the
encoded bytes of the path. -/
def normalize_path (p : List Nat) : List Nat :=
  p.map normByte

theorem normalize_path_append (a b : List Nat) :
    normalize_path (a ++ b) = normalize_path a ++ normalize_path b := by
  simp [normalize_path]

theorem normByte_idem (b : Nat) : normByte (normByte b) = normByte b := by
  by_cases h92 : b = 92
  · simp [normByte, h92]
  · by_cases hup : 65 ≤ b ∧ b ≤ 90
    · have hb : normByte b = b + 32 := by simp [normByte, h92, hup]
      have h1 : ¬ (b + 32 = 92) := by omega
      have h2 : ¬ (65 ≤ b + 32 ∧ b + 32 ≤ 90) := by omega
      rw [hb]
      simp only [normByte, h1, if_false]
      split <;> omega
    · have hb : normByte b = b := by simp [normByte, h92, hup]
      rw [hb, hb]

theorem normalize_path_idem (p : List Nat) :
    normalize_path (normalize_path p) = normalize_path p := by
  simp [normalize_path, Function.comp, normByte_idem]

/-!
### Model of `std::path` component semantics (Unix byte paths)

`Path::starts_with` / `Path::ends_with` compare component lists: segments
between `/` separators, with empty segments and interior `.` segments
skipped; a leading `/` contributes a root component and a leading `.`
segment is kept as the current-directory component.  The root and
current-directory components are encoded as the segments `[47]` and `[46]`,
which cannot clash with normal segments (a normal segment contains no `47`
and the bare `.` segment is filtered out of the normal list).
-/

/-- Split a byte path at every `/` (47), keeping empty segments. -/
def splitSeg : List Nat → List (List Nat)
  | [] => [[]]
  | b :: rest =>
    if b = 47 then [] :: splitSeg rest
    else
      match splitSeg rest with
      | [] => [[b]]
      | s :: ss => (b :: s) :: ss

theorem splitSeg_ne_nil (p : List Nat) : splitSeg p ≠ [] := by
  induction p with
  | nil => simp [splitSeg]
  | cons b rest ih =>
    unfold splitSeg
    split
    · simp
    · rcases h : splitSeg rest with _ | ⟨s, ss⟩ <;> simp [h]

theorem splitSeg_append_sep (a b : List Nat) :
    splitSeg (a ++ 47 :: b) = splitSeg a ++ splitSeg b := by
  induction a with
  | nil => simp [splitSeg]
  | cons x xs ih =>
    by_cases hx : x = 47
    · simp [splitSeg, hx, ih]
    · rcases h : splitSeg xs with _ | ⟨s, ss⟩
      · exact absurd h (splitSeg_ne_nil xs)
      · simp only [List.cons_append, splitSeg, hx, if_false, List.append_eq]
        rw [ih, h]
        simp

/-- The normal (non-marker) components of a byte path: nonempty segments
other than the bare `.` segment. -/
def coreSegs (p : List Nat) : List (List Nat) :=
  (splitSeg p).filter (fun s => !s.isEmpty && s ≠ [46])

theorem coreSegs_append_sep (a b : List Nat) :
    coreSegs (a ++ 47 :: b) = coreSegs a ++ coreSegs b := by
  simp [coreSegs, splitSeg_append_sep, List.filter_append]

/-- The component list of a byte path, mirroring `std::path::Components` on
Unix: a root marker for absolute paths, a kept leading `.` for paths whose
first segment is the bare dot, then the normal segments. -/
def rustComponents (p : List Nat) : List (List Nat) :=
  if p.head? = some 47 then [47] :: coreSegs p
  else
    match splitSeg p with
    | s :: _ => if s = [46] then [46] :: coreSegs p else coreSegs p
    | [] => coreSegs p

/-- `Path::ends_with` (used by `has_normalized_file`,
vfstool_lib/src/vfs.rs:273): the child's components are a suffix of the
parent's. -/
def endsWithPath (self child : List Nat) : Bool :=
  decide (rustComponents child <:+ rustComponents self)

/-- `Path::starts_with` (used by `paths_with`, vfstool_lib/src/vfs.rs:95):
the child's components are a prefix list of the parent's. -/
def startsWithPath (self child : List Nat) : Bool :=
  decide (rustComponents child <+: rustComponents self)

/-!
### Data model: archives and `VfsFile` (vfstool_lib/src/vfs_file.rs,
dw_vfs_lib/src/lib.rs)
-/

/-- A TES4 archived file: the per-file compressed flag and the logical
(decompressed) body; `decompressOk` records whether decompression of a
compressed body succeeds (`TES4FileReader::new`,
vfstool_lib/src/vfs_file.rs:96-109). -/
structure Tes4File where
  compressed : Bool
  decompressOk : Bool
  data : List Nat
  deriving DecidableEq

/-- The format-tagged decoded directory of an archive
(dw_vfs_lib/src/lib.rs:49-53): TES3 maps flat keys to byte spans, TES4 maps
directory keys to maps from file keys to files, FO4 maps flat keys to chunk
sequences. -/
inductive TypedArchive where
  | Tes3 (entries : List (List Nat × List Nat))
  | Tes4 (dirs : List (List Nat × List (List Nat × Tes4File)))
  | Fo4 (entries : List (List Nat × List (List Nat)))
  deriving DecidableEq

/-- `StoredArchive` (dw_vfs_lib/src/lib.rs:57-63): the archive's on-disk
path and its decoded directory (the kept-alive OS handle has no logical
content). -/
structure StoredArchive where
  path : List Nat
  archive : TypedArchive
  deriving DecidableEq

/-- The intra-archive names enumerated by `archives::file_map`
(dw_vfs_lib/src/lib.rs:126-160): for each format, the top-level keys of the
decoded directory. -/
def TypedArchive.names : TypedArchive → List (List Nat)
  | .Tes3 entries => entries.map Prod.fst
  | .Tes4 dirs => dirs.map Prod.fst
  | .Fo4 entries => entries.map Prod.fst

/-- `VfsFile` (vfstool_lib/src/vfs_file.rs:150-169): a loose file holding
its on-disk path, or an archived file holding the intra-archive path and
the parent archive. -/
inductive VfsFile where
  | Loose (path : List Nat)
  | Archive (path : List Nat) (parent : StoredArchive)
  deriving DecidableEq

/-- `VfsFile::path` (vfstool_lib/src/vfs_file.rs:428-435). -/
def VfsFile.path : VfsFile → List Nat
  | .Loose p => p
  | .Archive p _ => p

/-- `VfsFile::is_loose` (vfstool_lib/src/vfs_file.rs:220-226). -/
def VfsFile.is_loose : VfsFile → Bool
  | .Loose _ => true
  | .Archive _ _ => false

/-- `VfsFile::is_archive` (vfstool_lib/src/vfs_file.rs:228-234). -/
def VfsFile.is_archive : VfsFile → Bool
  | .Loose _ => false
  | .Archive _ _ => true

/-- `VfsFile::parent_archive_path` (vfstool_lib/src/vfs_file.rs:236-253):
the parent archive's on-disk path for archived files, absent for loose. -/
def VfsFile.parent_archive_path : VfsFile → Option (List Nat)
  | .Loose _ => none
  | .Archive _ a => some a.path

/-- The parent `StoredArchive` of an archived file
(`VfsFile::parent_archive_handle`, vfstool_lib/src/vfs_file.rs:274-282). -/
def VfsFile.parent_archive : VfsFile → Option StoredArchive
  | .Loose _ => none
  | .Archive _ a => some a

/-!
### The merged map

A `HashMap` built by a sequence of inserts (`collect`, `extend`,
`par_extend`: rayon's collect concatenates the per-split buffers in the
order of the source iterator, so the insertion sequence follows the
caller-supplied order) is modelled by its insertion sequence; the binding
inserted last for a key wins.
-/

abbrev VfsKey := List Nat
abbrev EntryList := List (VfsKey × VfsFile)

/-- Lookup in an insertion sequence: the last binding for the key wins,
modelling `HashMap` insert-overwrites semantics. -/
def lookupLast (l : EntryList) (k : VfsKey) : Option VfsFile :=
  match l with
  | [] => none
  | e :: rest =>
    match lookupLast rest k with
    | some v => some v
    | none => if e.1 = k then some e.2 else none

/-- The live bindings of an insertion sequence: for every key, only the
last inserted binding survives (the contents of the resulting `HashMap`).
-/
def dedupKeys : EntryList → EntryList
  | [] => []
  | e :: rest =>
    if rest.any (fun e2 => e2.1 = e.1) then dedupKeys rest else e :: dedupKeys rest

theorem lookupLast_cons (e : VfsKey × VfsFile) (rest : EntryList) (k : VfsKey) :
    lookupLast (e :: rest) k =
      match lookupLast rest k with
      | some v => some v
      | none => if e.1 = k then some e.2 else none := rfl

theorem lookupLast_isSome_of_mem {l : EntryList} {e : VfsKey × VfsFile}
    (h : e ∈ l) : (lookupLast l e.1).isSome := by
  induction l with
  | nil => cases h
  | cons x rest ih =>
    unfold lookupLast
    rcases List.mem_cons.mp h with h | h
    · subst h
      rcases hr : lookupLast rest e.1 with _ | v <;> simp [hr]
    · have := ih h
      rcases hr : lookupLast rest e.1 with _ | v
      · rw [hr] at this; simp at this
      · simp [hr]

theorem lookupLast_eq_none_of_not_mem {l : EntryList} {k : VfsKey}
    (h : ∀ e ∈ l, e.1 ≠ k) : lookupLast l k = none := by
  induction l with
  | nil => rfl
  | cons x rest ih =>
    unfold lookupLast
    rw [ih (fun e he => h e (List.mem_cons_of_mem x he))]
    simp [h x (List.mem_cons_self x rest)]

theorem mem_of_lookupLast_eq_some {l : EntryList} {k : VfsKey} {v : VfsFile}
    (h : lookupLast l k = some v) : (k, v) ∈ l := by
  induction l with
  | nil => simp [lookupLast] at h
  | cons x rest ih =>
    rw [lookupLast_cons] at h
    rcases hr : lookupLast rest k with _ | w
    · rw [hr] at h
      by_cases hk : x.1 = k
      · rcases x with ⟨x1, x2⟩
        simp only at hk
        subst hk
        simp at h
        subst h
        exact List.mem_cons_self _ _
      · simp [hk] at h
    · rw [hr] at h
      simp at h
      subst h
      exact List.mem_cons_of_mem x (ih hr)

theorem lookupLast_append (a b : EntryList) (k : VfsKey) :
    lookupLast (a ++ b) k =
      match lookupLast b k with
      | some v => some v
      | none => lookupLast a k := by
  induction a with
  | nil =>
    rcases h : lookupLast b k with _ | v <;> simp [lookupLast, h]
  | cons x rest ih =>
    simp only [List.cons_append, lookupLast_cons, ih]
    rcases h : lookupLast b k with _ | v <;>
      rcases h2 : lookupLast rest k with _ | w <;> simp [h, h2]

theorem lookupLast_dedupKeys (l : EntryList) (k : VfsKey) :
    lookupLast (dedupKeys l) k = lookupLast l k := by
  induction l with
  | nil => rfl
  | cons e rest ih =>
    unfold dedupKeys
    by_cases hs : rest.any (fun e2 => e2.1 = e.1)
    · rw [if_pos hs, ih, lookupLast_cons]
      rcases hr : lookupLast rest k with _ | v
      · by_cases hk : e.1 = k
        · exfalso
          rcases List.any_eq_true.mp hs with ⟨e2, he2, hkey⟩
          have hsome := lookupLast_isSome_of_mem he2
          rw [of_decide_eq_true hkey, hk, hr] at hsome
          simp at hsome
        · simp [hr, hk]
      · simp [hr]
    · rw [if_neg hs]
      simp only [lookupLast_cons, ih]

theorem mem_dedupKeys_iff (l : EntryList) (k : VfsKey) (v : VfsFile) :
    (k, v) ∈ dedupKeys l ↔ lookupLast l k = some v := by
  constructor
  · intro hmem
    induction l with
    | nil => cases hmem
    | cons e rest ih =>
      unfold dedupKeys at hmem
      by_cases hs : rest.any (fun e2 => e2.1 = e.1)
      · rw [if_pos hs] at hmem
        rw [lookupLast_cons, ih hmem]
      · rw [if_neg hs] at hmem
        rw [lookupLast_cons]
        rcases List.mem_cons.mp hmem with h | h
        · have hk : e.1 = k := by rw [← h]
          have hv : e.2 = v := by rw [← h]
          have hnone : lookupLast rest k = none := by
            apply lookupLast_eq_none_of_not_mem
            intro e2 he2 hkey
            exact hs (List.any_eq_true.mpr
              ⟨e2, he2, decide_eq_true (by rw [hkey, hk])⟩)
          rw [hnone]
          simp [hk, hv]
        · rw [ih h]
  · intro h
    exact mem_of_lookupLast_eq_some (by rw [lookupLast_dedupKeys]; exact h)

/-!
### The merged map builder (`VFS::from_directories`,
vfstool_lib/src/vfs.rs:142-163)
-/

/-- A data root as seen by the walker: its on-disk directory path and the
relative paths of the plain files discovered under it, in walk order. -/
structure DataRoot where
  root : List Nat
  rels : List (List Nat)
  deriving DecidableEq

/-- `VFS::directory_contents_to_file_map` (vfstool_lib/src/vfs.rs:121-139):
each discovered file contributes the normalized relative path as key and a
Loose `VfsFile` holding the full on-disk path (`dir.join(rel)`). -/
def directory_contents_to_file_map (d : DataRoot) : EntryList :=
  d.rels.map (fun rel => (normalize_path rel, VfsFile.Loose (d.root ++ 47 :: rel)))

/-- `archives::file_map` (dw_vfs_lib/src/lib.rs:126-160) as an insertion
sequence: for each stored archive in input order, each enumerated name
contributes the normalized name as key and an Archived `VfsFile` holding
the raw name and the parent archive. -/
def archives.file_map (arcs : List StoredArchive) : EntryList :=
  arcs.flatMap (fun a =>
    a.archive.names.map (fun name => (normalize_path name, VfsFile.Archive name a)))

/-- The VFS: the live key-to-file bindings of the merged `HashMap`. -/
structure VFS where
  file_map : EntryList

/-- `VFS::from_directories` (vfstool_lib/src/vfs.rs:142-163): collect the
loose map from the data roots in order, ingest the archive map, then extend
it with the loose map so that loose files overwrite archived ones. -/
def VFS.from_directories (roots : List DataRoot) (arcs : List StoredArchive) : VFS :=
  ⟨dedupKeys (archives.file_map arcs ++ roots.flatMap directory_contents_to_file_map)⟩

/-- `VFS::get_file` (vfstool_lib/src/vfs.rs:41-44): normalize, then map
lookup. -/
def VFS.get_file (v : VFS) (p : List Nat) : Option VfsFile :=
  lookupLast v.file_map (normalize_path p)

/-- `VFS::has_file` (vfstool_lib/src/vfs.rs:279-284): some entry's
normalized `path()` equals the normalized target. -/
def VFS.has_file (v : VFS) (target : List Nat) : Bool :=
  v.file_map.any (fun e => normalize_path e.2.path = normalize_path target)

/-- `VFS::has_normalized_file` (vfstool_lib/src/vfs.rs:269-274): some
entry's key is a path-suffix of the normalized target. -/
def VFS.has_normalized_file (v : VFS) (target : List Nat) : Bool :=
  v.file_map.any (fun e => endsWithPath (normalize_path target) e.1)

/-- `VFS::has_normalized_not_exact` (vfstool_lib/src/vfs.rs:289-294): some
entry whose raw `path()` differs from the (un-normalized) target while its
key is a path-suffix of the normalized target. -/
def VFS.has_normalized_not_exact (v : VFS) (target : List Nat) : Bool :=
  v.file_map.any (fun e => decide (e.2.path ≠ target) && endsWithPath (normalize_path target) e.1)

/-- `VFS::paths_with` (vfstool_lib/src/vfs.rs:91-101): the entries whose
key starts with the normalized argument. -/
def VFS.paths_with (v : VFS) (pfx : List Nat) : EntryList :=
  v.file_map.filter (fun e => startsWithPath e.1 (normalize_path pfx))

/-- `VFS::par_paths_with` (vfstool_lib/src/vfs.rs:104-117): the parallel
variant applies the same predicate to the same entries. -/
def VFS.par_paths_with (v : VFS) (pfx : List Nat) : EntryList :=
  v.file_map.filter (fun e => startsWithPath e.1 (normalize_path pfx))

/-!
### Layering lemmas
-/

theorem mem_directory_contents {d : DataRoot} {e : VfsKey × VfsFile}
    (h : e ∈ directory_contents_to_file_map d) :
    ∃ rel ∈ d.rels, e = (normalize_path rel, VfsFile.Loose (d.root ++ 47 :: rel)) := by
  rcases List.mem_map.mp h with ⟨rel, hrel, heq⟩
  exact ⟨rel, hrel, heq.symm⟩

theorem loose_entry_is_loose {roots : List DataRoot} {e : VfsKey × VfsFile}
    (h : e ∈ roots.flatMap directory_contents_to_file_map) : e.2.is_loose = true := by
  rcases List.mem_flatMap.mp h with ⟨d, _, hd⟩
  rcases mem_directory_contents hd with ⟨rel, _, heq⟩
  rw [heq]
  rfl

theorem mem_archives_file_map {arcs : List StoredArchive} {e : VfsKey × VfsFile}
    (h : e ∈ archives.file_map arcs) :
    ∃ a ∈ arcs, ∃ name ∈ a.archive.names,
      e = (normalize_path name, VfsFile.Archive name a) := by
  rcases List.mem_flatMap.mp h with ⟨a, ha, hin⟩
  rcases List.mem_map.mp hin with ⟨name, hname, heq⟩
  exact ⟨a, ha, name, hname, heq.symm⟩

/-- **C1.** For every key present both as a loose file under some data root
and inside at least one ingested archive, the VFS built by
`from_directories` binds that key to the Loose `VfsFile`: `get_file` on
that key returns the loose file (`is_loose` true), never the archived one.
-/
theorem loose_overrides_archived
    (roots : List DataRoot) (arcs : List StoredArchive) (k : VfsKey)
    (hloose : ∃ r ∈ roots, ∃ rel ∈ r.rels, normalize_path rel = k)
    (harc : ∃ a ∈ arcs, ∃ name ∈ a.archive.names, normalize_path name = k) :
    ∃ f, (VFS.from_directories roots arcs).get_file k = some f ∧
      f.is_loose = true ∧ f.is_archive = false := by
  rcases hloose with ⟨r, hr, rel, hrel, hk⟩
  have hkn : normalize_path k = k := by rw [← hk, normalize_path_idem]
  have hmem : (k, VfsFile.Loose (r.root ++ 47 :: rel)) ∈
      roots.flatMap directory_contents_to_file_map := by
    apply List.mem_flatMap.mpr
    refine ⟨r, hr, ?_⟩
    apply List.mem_map.mpr
    exact ⟨rel, hrel, by rw [hk]⟩
  have hsome := lookupLast_isSome_of_mem hmem
  simp only at hsome
  rcases hlook : lookupLast (roots.flatMap directory_contents_to_file_map) k with _ | f
  · rw [hlook] at hsome
    simp at hsome
  · refine ⟨f, ?_, ?_, ?_⟩
    · unfold VFS.from_directories VFS.get_file
      rw [hkn]
      simp only
      rw [lookupLast_dedupKeys, lookupLast_append, hlook]
    · exact loose_entry_is_loose (mem_of_lookupLast_eq_some hlook)
    · have hl := loose_entry_is_loose (mem_of_lookupLast_eq_some hlook)
      simp only at hl
      rcases f with p | ⟨p, a⟩
      · rfl
      · simp [VfsFile.is_loose] at hl

/-- **C2.** For data roots supplied in the order `[A, B]`, if both roots
contain a file whose path relativizes to the same normalized key `k`, then
`get_file k` is the Loose file at the on-disk path under `B`: later data
roots always override earlier ones on key collisions. -/
theorem later_root_wins
    (A B : DataRoot) (arcs : List StoredArchive) (k : VfsKey)
    (hA : ∃ rel ∈ A.rels, normalize_path rel = k)
    (hB : ∃ rel ∈ B.rels, normalize_path rel = k) :
    ∃ rel ∈ B.rels, normalize_path rel = k ∧
      (VFS.from_directories [A, B] arcs).get_file k =
        some (VfsFile.Loose (B.root ++ 47 :: rel)) := by
  rcases hB with ⟨relB, hrelB, hkB⟩
  have hkn : normalize_path k = k := by rw [← hkB, normalize_path_idem]
  have hmemB : (k, VfsFile.Loose (B.root ++ 47 :: relB)) ∈
      directory_contents_to_file_map B := by
    apply List.mem_map.mpr
    exact ⟨relB, hrelB, by rw [hkB]⟩
  have hsomeB := lookupLast_isSome_of_mem hmemB
  simp only at hsomeB
  rcases hlookB : lookupLast (directory_contents_to_file_map B) k with _ | f
  · rw [hlookB] at hsomeB
    simp at hsomeB
  · rcases mem_directory_contents (mem_of_lookupLast_eq_some hlookB)
      with ⟨rel, hrel, heq⟩
    rw [Prod.mk.injEq] at heq
    have hpair := heq
    refine ⟨rel, hrel, hpair.1.symm, ?_⟩
    unfold VFS.from_directories VFS.get_file
    rw [hkn]
    simp only [List.flatMap_cons, List.flatMap_nil, List.append_nil]
    rw [lookupLast_dedupKeys, lookupLast_append, lookupLast_append, hlookB,
      ← hpair.2]

/-- **C5.** For archives supplied in the order `[X, Y]`, if both archives
contain an entry with the same normalized key `k` and no loose file
provides `k`, then `get_file k` is an Archived `VfsFile` whose parent
archive is `Y`: the last archive in the input list wins on key collisions.
-/
theorem later_archive_wins
    (roots : List DataRoot) (X Y : StoredArchive) (k : VfsKey)
    (hX : ∃ name ∈ X.archive.names, normalize_path name = k)
    (hY : ∃ name ∈ Y.archive.names, normalize_path name = k)
    (hnoloose : ∀ r ∈ roots, ∀ rel ∈ r.rels, normalize_path rel ≠ k) :
    ∃ name ∈ Y.archive.names, normalize_path name = k ∧
      (VFS.from_directories roots [X, Y]).get_file k =
        some (VfsFile.Archive name Y) := by
  rcases hY with ⟨nameY, hnameY, hkY⟩
  have hkn : normalize_path k = k := by rw [← hkY, normalize_path_idem]
  have hmemY : (k, VfsFile.Archive nameY Y) ∈
      (Y.archive.names.map (fun name => (normalize_path name, VfsFile.Archive name Y))) := by
    apply List.mem_map.mpr
    exact ⟨nameY, hnameY, by rw [hkY]⟩
  have hsomeY := lookupLast_isSome_of_mem hmemY
  simp only at hsomeY
  rcases hlookY : lookupLast
      (Y.archive.names.map (fun name => (normalize_path name, VfsFile.Archive name Y))) k
      with _ | f
  · rw [hlookY] at hsomeY
    simp at hsomeY
  · have hfmem := mem_of_lookupLast_eq_some hlookY
    rcases List.mem_map.mp hfmem with ⟨name, hname, heq⟩
    rw [Prod.mk.injEq] at heq
    refine ⟨name, hname, heq.1, ?_⟩
    have hnone : lookupLast (roots.flatMap directory_contents_to_file_map) k = none := by
      apply lookupLast_eq_none_of_not_mem
      intro e he
      rcases List.mem_flatMap.mp he with ⟨d, hd, hin⟩
      rcases mem_directory_contents hin with ⟨rel, hrel, hpe⟩
      rw [hpe]
      exact hnoloose d hd rel hrel
    unfold VFS.from_directories VFS.get_file
    rw [hkn]
    simp only
    rw [lookupLast_dedupKeys, lookupLast_append, hnone]
    unfold archives.file_map
    simp only [List.flatMap_cons, List.flatMap_nil, List.append_nil]
    rw [lookupLast_append, hlookY, ← heq.2]

/-- Concrete instance of `loose_overrides_archived`: one data root with the
file `t`, one TES3 archive also containing key `t` (stored as `T`). -/
theorem loose_overrides_archived_witness :
    ∃ f, (VFS.from_directories [⟨[97], [[116]]⟩]
        [⟨[120], TypedArchive.Tes3 [([84], [0])]⟩]).get_file [116] = some f ∧
      f.is_loose = true ∧ f.is_archive = false :=
  loose_overrides_archived [⟨[97], [[116]]⟩] [⟨[120], TypedArchive.Tes3 [([84], [0])]⟩]
    [116]
    ⟨⟨[97], [[116]]⟩, by decide, [116], by decide, by decide⟩
    ⟨⟨[120], TypedArchive.Tes3 [([84], [0])]⟩, by decide, [84], by decide, by decide⟩

/-- Concrete instance of `later_root_wins`: roots `a` (file `t`) and `b`
(file `T`), colliding on the key `t`. -/
theorem later_root_wins_witness :
    ∃ rel ∈ (⟨[98], [[84]]⟩ : DataRoot).rels, normalize_path rel = [116] ∧
      (VFS.from_directories [⟨[97], [[116]]⟩, ⟨[98], [[84]]⟩] []).get_file [116] =
        some (VfsFile.Loose ([98] ++ 47 :: rel)) :=
  later_root_wins ⟨[97], [[116]]⟩ ⟨[98], [[84]]⟩ [] [116]
    ⟨[116], by decide, by decide⟩ ⟨[84], by decide, by decide⟩

/-- Concrete instance of `later_archive_wins`: two TES3 archives both
containing key `t`, no data roots. -/
theorem later_archive_wins_witness :
    ∃ name ∈ (⟨[121], TypedArchive.Tes3 [([116], [7])]⟩ : StoredArchive).archive.names,
      normalize_path name = [116] ∧
      (VFS.from_directories [] [⟨[120], TypedArchive.Tes3 [([84], [0])]⟩,
          ⟨[121], TypedArchive.Tes3 [([116], [7])]⟩]).get_file [116] =
        some (VfsFile.Archive name ⟨[121], TypedArchive.Tes3 [([116], [7])]⟩) :=
  later_archive_wins [] ⟨[120], TypedArchive.Tes3 [([84], [0])]⟩
    ⟨[121], TypedArchive.Tes3 [([116], [7])]⟩ [116]
    ⟨[84], by decide, by decide⟩ ⟨[116], by decide, by decide⟩
    (fun r hr => absurd hr (List.not_mem_nil r))

/-- **C4.** `normalize_path` is computed byte-by-byte: each backslash
(0x5C = 92) becomes forward slash (0x2F = 47), each ASCII uppercase letter
becomes its lowercase counterpart (+32), and every other byte — including
every non-ASCII byte — is left exactly as it was, with the length
preserved (no Unicode case-folding, no lossy replacement). -/
theorem normalize_path_bytewise (p : List Nat) :
    (normalize_path p).length = p.length ∧
    ∀ i (h : i < p.length) (h2 : i < (normalize_path p).length),
      (normalize_path p).get ⟨i, h2⟩ =
        (if p.get ⟨i, h⟩ = 92 then 47
         else if 65 ≤ p.get ⟨i, h⟩ ∧ p.get ⟨i, h⟩ ≤ 90 then p.get ⟨i, h⟩ + 32
         else p.get ⟨i, h⟩) := by
  refine ⟨by simp [normalize_path], ?_⟩
  intro i h h2
  simp [normalize_path, normByte]

/-- Concrete instance of `normalize_path_bytewise` on the bytes
`[92, 66, 200]` (a backslash, an uppercase B, a non-ASCII byte). -/
theorem normalize_path_bytewise_witness :
    (normalize_path [92, 66, 200]).get ⟨0, by decide⟩ = 47 ∧
    (normalize_path [92, 66, 200]).get ⟨1, by decide⟩ = 98 ∧
    (normalize_path [92, 66, 200]).get ⟨2, by decide⟩ = 200 := by
  refine ⟨?_, ?_, ?_⟩
  · have h := (normalize_path_bytewise [92, 66, 200]).2 0 (by decide) (by decide)
    simpa using h
  · have h := (normalize_path_bytewise [92, 66, 200]).2 1 (by decide) (by decide)
    simpa using h
  · have h := (normalize_path_bytewise [92, 66, 200]).2 2 (by decide) (by decide)
    simpa using h

/-- **C8.** `paths_with` and `par_paths_with` yield exactly the entries of
the merged map whose key starts with the normalized argument, and no other
entries; the two variants agree. -/
theorem paths_with_exact (v : VFS) (q : List Nat) (k : VfsKey) (f : VfsFile) :
    ((k, f) ∈ v.paths_with q ↔
      (k, f) ∈ v.file_map ∧ startsWithPath k (normalize_path q) = true) ∧
    ((k, f) ∈ v.par_paths_with q ↔
      (k, f) ∈ v.file_map ∧ startsWithPath k (normalize_path q) = true) ∧
    v.par_paths_with q = v.paths_with q := by
  refine ⟨?_, ?_, rfl⟩ <;>
    simp [VFS.paths_with, VFS.par_paths_with, List.mem_filter]

/-!
### Tree projection (`DirectoryNode`, src/directory_node.rs;
`VFS::tree_filtered`, vfstool_lib/src/vfs.rs:240-252)
-/

/-- `DirectoryNode` (src/directory_node.rs:32-36): the files directly in
this directory and the map from full subdirectory path to child node. -/
inductive DirectoryNode where
  | mk (files : List VfsFile) (subdirs : List (List Nat × DirectoryNode))

def DirectoryNode.files : DirectoryNode → List VfsFile
  | .mk fs _ => fs

def DirectoryNode.subdirs : DirectoryNode → List (List Nat × DirectoryNode)
  | .mk _ sd => sd

/-- `DirectoryNode::filter` (src/directory_node.rs:77-87): retain the files
satisfying the predicate, recursively filter the subdirectories, and drop
subdirectories left with no files and no subdirectories. -/
def DirectoryNode.filter (pred : VfsFile → Bool) : DirectoryNode → DirectoryNode
  | .mk files subdirs =>
    .mk (files.filter pred)
      ((subdirs.attach.map (fun kd => (kd.1.1, DirectoryNode.filter pred kd.1.2))).filter
        (fun kd => !(kd.2.files.isEmpty && kd.2.subdirs.isEmpty)))
  termination_by d => sizeOf d
  decreasing_by
    rcases kd with ⟨⟨a, b⟩, hmem⟩
    have h := List.sizeOf_lt_of_mem hmem
    simp at h ⊢
    omega

/-- All files of a node, in traversal order: own files, then those of the
subdirectories. -/
def DirectoryNode.filesList : DirectoryNode → List VfsFile
  | .mk files subdirs =>
    files ++ subdirs.attach.flatMap (fun kd => DirectoryNode.filesList kd.1.2)
  termination_by d => sizeOf d
  decreasing_by
    rcases kd with ⟨⟨a, b⟩, hmem⟩
    have h := List.sizeOf_lt_of_mem hmem
    simp at h ⊢
    omega

/-- Whether every node of this subtree holds an empty file list. -/
def DirectoryNode.allFilesEmpty : DirectoryNode → Bool
  | .mk files subdirs =>
    files.isEmpty && subdirs.attach.all (fun kd => DirectoryNode.allFilesEmpty kd.1.2)
  termination_by d => sizeOf d
  decreasing_by
    rcases kd with ⟨⟨a, b⟩, hmem⟩
    have h := List.sizeOf_lt_of_mem hmem
    simp at h ⊢
    omega

/-- The projected tree: an ordered map from root path to root node
(`DisplayTree`, dw_vfs_lib/src/lib.rs:14). -/
abbrev DisplayTree := List (List Nat × DirectoryNode)

/-- `VFS::tree_filtered` (vfstool_lib/src/vfs.rs:240-252) applied to the
projected tree: produce the tree, then run `DirectoryNode::filter` on every
root node. -/
def tree_filtered (t : DisplayTree) (pred : VfsFile → Bool) : DisplayTree :=
  t.map (fun kd => (kd.1, kd.2.filter pred))

/-- All files of a projected tree, in traversal order. -/
def treeFilesList (t : DisplayTree) : List VfsFile :=
  t.flatMap (fun kd => kd.2.filesList)

theorem DirectoryNode.myInd {motive : DirectoryNode → Prop}
    (h : ∀ files subdirs,
      (∀ kd ∈ subdirs, motive kd.2) → motive (.mk files subdirs)) :
    ∀ d, motive d := by
  suffices H : ∀ n (d : DirectoryNode), sizeOf d < n → motive d by
    intro d
    exact H (sizeOf d + 1) d (Nat.lt_succ_self _)
  intro n
  induction n with
  | zero => intro d hd; omega
  | succ n ih =>
    intro d hd
    rcases d with ⟨files, subdirs⟩
    apply h
    intro kd hkd
    rcases kd with ⟨a, b⟩
    apply ih
    have h2 := List.sizeOf_lt_of_mem hkd
    simp at h2 hd ⊢
    omega

theorem DirectoryNode.filter_mk (pred : VfsFile → Bool) (files : List VfsFile)
    (subdirs : List (List Nat × DirectoryNode)) :
    (DirectoryNode.mk files subdirs).filter pred =
      .mk (files.filter pred)
        ((subdirs.map (fun kd => (kd.1, kd.2.filter pred))).filter
          (fun kd => !(kd.2.files.isEmpty && kd.2.subdirs.isEmpty))) := by
  rw [DirectoryNode.filter]
  congr 1
  congr 1
  exact List.attach_map_coe subdirs (fun kd => (kd.1, kd.2.filter pred))

theorem DirectoryNode.filesList_mk (files : List VfsFile)
    (subdirs : List (List Nat × DirectoryNode)) :
    (DirectoryNode.mk files subdirs).filesList =
      files ++ subdirs.flatMap (fun kd => kd.2.filesList) := by
  rw [DirectoryNode.filesList]
  congr 1
  rw [List.flatMap_def, List.flatMap_def]
  congr 1
  exact List.attach_map_coe subdirs (fun kd => kd.2.filesList)

theorem DirectoryNode.allFilesEmpty_mk (files : List VfsFile)
    (subdirs : List (List Nat × DirectoryNode)) :
    (DirectoryNode.mk files subdirs).allFilesEmpty =
      (files.isEmpty && subdirs.all (fun kd => kd.2.allFilesEmpty)) := by
  rw [DirectoryNode.allFilesEmpty]
  congr 1
  rw [Bool.eq_iff_iff]
  simp only [List.all_eq_true, List.mem_attach, true_implies, Subtype.forall]

theorem DirectoryNode.filesList_of_empty {d : DirectoryNode}
    (h1 : d.files = []) (h2 : d.subdirs = []) :
    d.filesList = [] := by
  rcases d with ⟨files, subdirs⟩
  simp only [DirectoryNode.files, DirectoryNode.subdirs] at h1 h2
  subst h1; subst h2
  rw [DirectoryNode.filesList_mk]
  simp

theorem DirectoryNode.filter_true_filesList (d : DirectoryNode) :
    (d.filter (fun _ => true)).filesList = d.filesList := by
  induction d using DirectoryNode.myInd with
  | h files subdirs ih =>
    rw [DirectoryNode.filter_mk, DirectoryNode.filesList_mk,
      DirectoryNode.filesList_mk]
    simp only [List.filter_true]
    congr 1
    induction subdirs with
    | nil => rfl
    | cons kd rest iht =>
      have ihkd := ih kd (List.mem_cons_self kd rest)
      have ihrest := iht (fun x hx => ih x (List.mem_cons_of_mem kd hx))
      simp only [List.map_cons, List.filter_cons]
      by_cases hkeep :
          (!((kd.2.filter (fun _ => true)).files.isEmpty &&
            (kd.2.filter (fun _ => true)).subdirs.isEmpty)) = true
      · rw [if_pos hkeep]
        simp only [List.flatMap_cons]
        rw [ihrest, ihkd]
      · rw [if_neg hkeep]
        simp at hkeep
        rcases hkeep with ⟨he1, he2⟩
        have hempty := DirectoryNode.filesList_of_empty he1 he2
        rw [ihkd] at hempty
        simp only [List.flatMap_cons]
        rw [ihrest, hempty]
        simp

theorem DirectoryNode.filter_false_allFilesEmpty (d : DirectoryNode) :
    (d.filter (fun _ => false)).allFilesEmpty = true := by
  induction d using DirectoryNode.myInd with
  | h files subdirs ih =>
    rw [DirectoryNode.filter_mk, DirectoryNode.allFilesEmpty_mk]
    simp only [List.filter_false, List.isEmpty_nil, Bool.true_and]
    apply List.all_eq_true.mpr
    intro kd hkd
    rcases List.mem_filter.mp hkd with ⟨hmem, _⟩
    rcases List.mem_map.mp hmem with ⟨x, hx, hxe⟩
    rw [← hxe]
    exact ih x hx

/-!
### Membership queries (C6, C10)
-/

theorem dedupKeys_subset {l : EntryList} {e : VfsKey × VfsFile}
    (h : e ∈ dedupKeys l) : e ∈ l := by
  induction l with
  | nil => cases h
  | cons x rest ih =>
    unfold dedupKeys at h
    by_cases hs : rest.any (fun e2 => e2.1 = x.1)
    · rw [if_pos hs] at h
      exact List.mem_cons_of_mem x (ih h)
    · rw [if_neg hs] at h
      rcases List.mem_cons.mp h with h | h
      · exact h ▸ List.mem_cons_self x rest
      · exact List.mem_cons_of_mem x (ih h)

/-- A walker-produced relative path: its normalization does not start with
a separator and its first segment is not the bare `.`.  Every relative path
produced by `WalkDir` + `strip_prefix` on a Unix host satisfies this. -/
def CleanRel (rel : List Nat) : Prop :=
  (normalize_path rel).head? ≠ some 47 ∧
  (splitSeg (normalize_path rel)).head? ≠ some [46]

instance (rel : List Nat) : Decidable (CleanRel rel) := by
  unfold CleanRel
  infer_instance

theorem coreSegs_suffix_rustComponents (p : List Nat) :
    coreSegs p <:+ rustComponents p := by
  unfold rustComponents
  split
  · exact List.suffix_cons _ _
  · split
    · split
      · exact List.suffix_cons _ _
      · exact List.suffix_refl _
    · exact List.suffix_refl _

theorem rustComponents_of_clean {rel : List Nat} (h : CleanRel rel) :
    rustComponents (normalize_path rel) = coreSegs (normalize_path rel) := by
  unfold rustComponents
  rw [if_neg h.1]
  split
  next s rest hs =>
    have hne : s ≠ [46] := by
      intro hcontra
      exact h.2 (by rw [hs, hcontra]; rfl)
    rw [if_neg hne]
  next => rfl

theorem endsWithPath_refl (p : List Nat) : endsWithPath p p = true :=
  decide_eq_true (List.suffix_refl _)

theorem normalize_path_join (root rel : List Nat) :
    normalize_path (root ++ 47 :: rel) =
      normalize_path root ++ 47 :: normalize_path rel := by
  rw [normalize_path_append]
  simp [normalize_path, normByte]

/-- The key of a loose entry is a path-suffix of its normalized on-disk
path: `normalize (root/rel)` ends with `normalize rel`. -/
theorem endsWith_root_join (root rel : List Nat) (h : CleanRel rel) :
    endsWithPath (normalize_path (root ++ 47 :: rel)) (normalize_path rel) = true := by
  unfold endsWithPath
  apply decide_eq_true
  rw [normalize_path_join, rustComponents_of_clean h]
  have h3 := coreSegs_suffix_rustComponents
    (normalize_path root ++ 47 :: normalize_path rel)
  rw [coreSegs_append_sep] at h3
  exact List.IsSuffix.trans (List.suffix_append _ _) h3

/-- **C6 (amended).**  In every constructed VFS (with walker-clean relative
paths), `has_file target` implies `has_normalized_file target`, and
`has_normalized_not_exact target` implies `has_normalized_file target`.
The original claim's further consequence `¬ has_file target` does not hold
(see the counterexample): `has_normalized_not_exact` compares the stored
raw path byte-for-byte, so an entry whose on-disk path differs from the
target only in case witnesses both predicates at once. -/
theorem has_file_queries
    (roots : List DataRoot) (arcs : List StoredArchive) (target : List Nat)
    (hwf : ∀ r ∈ roots, ∀ rel ∈ r.rels, CleanRel rel) :
    ((VFS.from_directories roots arcs).has_file target = true →
      (VFS.from_directories roots arcs).has_normalized_file target = true) ∧
    ((VFS.from_directories roots arcs).has_normalized_not_exact target = true →
      (VFS.from_directories roots arcs).has_normalized_file target = true) := by
  constructor
  · intro hf
    unfold VFS.has_file at hf
    rcases List.any_eq_true.mp hf with ⟨e, he, hpred⟩
    have hpe : normalize_path e.2.path = normalize_path target :=
      of_decide_eq_true hpred
    have hel := dedupKeys_subset he
    unfold VFS.has_normalized_file
    apply List.any_eq_true.mpr
    refine ⟨e, he, ?_⟩
    rcases List.mem_append.mp hel with hA | hL
    · rcases mem_archives_file_map hA with ⟨a, _, name, _, heq⟩
      rw [heq] at hpe ⊢
      simp only [VfsFile.path] at hpe
      show endsWithPath (normalize_path target) (normalize_path name) = true
      rw [← hpe]
      exact endsWithPath_refl _
    · rcases List.mem_flatMap.mp hL with ⟨d, hd, hin⟩
      rcases mem_directory_contents hin with ⟨rel, hrel, heq⟩
      have hclean := hwf d hd rel hrel
      rw [heq] at hpe ⊢
      simp only [VfsFile.path] at hpe
      show endsWithPath (normalize_path target) (normalize_path rel) = true
      rw [← hpe]
      exact endsWith_root_join d.root rel hclean
  · intro hn
    unfold VFS.has_normalized_not_exact at hn
    rcases List.any_eq_true.mp hn with ⟨e, he, hpred⟩
    unfold VFS.has_normalized_file
    exact List.any_eq_true.mpr ⟨e, he, (Bool.and_eq_true_iff.mp hpred).2⟩

/-- Concrete instance of `has_file_queries`: one data root `A` with the
file `B.t`, querying `a/b.t`. -/
theorem has_file_queries_witness :
    ((VFS.from_directories [⟨[65], [[66, 46, 116]]⟩] []).has_file
        [97, 47, 98, 46, 116] = true →
      (VFS.from_directories [⟨[65], [[66, 46, 116]]⟩] []).has_normalized_file
        [97, 47, 98, 46, 116] = true) ∧
    ((VFS.from_directories [⟨[65], [[66, 46, 116]]⟩] []).has_normalized_not_exact
        [97, 47, 98, 46, 116] = true →
      (VFS.from_directories [⟨[65], [[66, 46, 116]]⟩] []).has_normalized_file
        [97, 47, 98, 46, 116] = true) :=
  has_file_queries [⟨[65], [[66, 46, 116]]⟩] [] [97, 47, 98, 46, 116] (by decide)

/-- **C6 counterexample.**  With the single data root `A` containing `B.t`,
the VFS binds key `b.t` to the loose file at `A/B.t`; querying the target
`a/b.t` makes `has_normalized_not_exact` true (the raw stored path differs
from the target byte-wise) while `has_file` is also true — refuting
`has_normalized_not_exact p → ¬ has_file p`. -/
theorem has_normalized_not_exact_with_has_file :
    ¬ ((VFS.from_directories [⟨[65], [[66, 46, 116]]⟩] []).has_normalized_not_exact
          [97, 47, 98, 46, 116] = true →
        (VFS.from_directories [⟨[65], [[66, 46, 116]]⟩] []).has_normalized_file
          [97, 47, 98, 46, 116] = true ∧
        ¬ (VFS.from_directories [⟨[65], [[66, 46, 116]]⟩] []).has_file
          [97, 47, 98, 46, 116] = true) := by
  decide

/-- **C10.**  `has_normalized_not_exact` compares each entry's stored
`path()` with the queried target byte-for-byte, without normalizing either
side: for the VFS whose single entry is the loose file `Data/Tex.DDS`
(key `tex.dds`), querying `data/tex.dds` — the same file up to ASCII letter
case, as the normalization equality below shows — yields
`has_normalized_not_exact` true even though the entry is the file at the
queried path itself, and `has_file` is simultaneously true. -/
theorem has_normalized_not_exact_case_variant :
    (VFS.from_directories
        [⟨[68, 97, 116, 97], [[84, 101, 120, 46, 68, 68, 83]]⟩] []).file_map =
      [([116, 101, 120, 46, 100, 100, 115],
        VfsFile.Loose [68, 97, 116, 97, 47, 84, 101, 120, 46, 68, 68, 83])] ∧
    ([68, 97, 116, 97, 47, 84, 101, 120, 46, 68, 68, 83] : List Nat) ≠
      [100, 97, 116, 97, 47, 116, 101, 120, 46, 100, 100, 115] ∧
    normalize_path [68, 97, 116, 97, 47, 84, 101, 120, 46, 68, 68, 83] =
      [100, 97, 116, 97, 47, 116, 101, 120, 46, 100, 100, 115] ∧
    (VFS.from_directories
        [⟨[68, 97, 116, 97], [[84, 101, 120, 46, 68, 68, 83]]⟩] []).has_normalized_not_exact
      [100, 97, 116, 97, 47, 116, 101, 120, 46, 100, 100, 115] = true ∧
    (VFS.from_directories
        [⟨[68, 97, 116, 97], [[84, 101, 120, 46, 68, 68, 83]]⟩] []).has_file
      [100, 97, 116, 97, 47, 116, 101, 120, 46, 100, 100, 115] = true := by
  decide

/-!
### Opening files (`VfsFile::open`, vfstool_lib/src/vfs_file.rs:304-345)
-/

/-- Association lookup, modelling `get` on an archive's decoded directory
(unique keys). -/
def lookupAssoc {α β : Type} [DecidableEq α] : List (α × β) → α → Option β
  | [], _ => none
  | e :: rest, k => if e.1 = k then some e.2 else lookupAssoc rest k

/-- Join segments with `/`, inverse of `splitSeg` on clean paths. -/
def joinPath : List (List Nat) → List Nat
  | [] => []
  | [s] => s
  | s :: rest => s ++ 47 :: joinPath rest

/-- `Path::parent` for separator-normalized non-empty intra-archive paths:
everything before the final segment (`some []` when there is no
separator), `none` on the empty path. -/
def pathParent (p : List Nat) : Option (List Nat) :=
  if p = [] then none
  else some (joinPath (splitSeg p).dropLast)

/-- `Path::file_name` for separator-normalized intra-archive paths: the
final segment when it is nonempty. -/
def pathFileName (p : List Nat) : Option (List Nat) :=
  match (splitSeg p).getLast? with
  | some s => if s = [] then none else some s
  | none => none

inductive ErrorKind where
  | NotFound
  | InvalidData
  | IOError
  deriving DecidableEq

/-- The observable outcome of `VfsFile::open`: a reader over the given
logical bytes, an `io::Error` of the given kind, or a panic
(`Option::unwrap` on `None`, which aborts instead of returning). -/
inductive OpenResult where
  | ok (data : List Nat)
  | err (kind : ErrorKind)
  | panicked
  deriving DecidableEq

/-- `ArchiveReference::tes4_keys` (vfstool_lib/src/vfs_file.rs:128-148):
split the intra-archive path into the directory key and the file key,
failing with `NotFound` when either part is missing. -/
def tes4_keys (p : List Nat) : Except ErrorKind (List Nat × List Nat) :=
  match pathParent p with
  | none => .error .NotFound
  | some d =>
    match pathFileName p with
    | none => .error .NotFound
    | some f => .ok (d, f)

/-- `VfsFile::open` (vfstool_lib/src/vfs_file.rs:304-345).  `disk` is the
host filesystem's answer for loose paths.  For archived files: TES3 looks
the raw path up in the flat directory and `unwrap`s the result (panicking
on a miss); TES4 splits the path with `tes4_keys`, looks up directory then
file and `unwrap`s (panicking when either is absent), then decompresses if
flagged (`InvalidData` on failure); FO4 looks the path up and `unwrap`s
(panicking on a miss), then streams the concatenated chunks. -/
def VfsFile.open (disk : List Nat → Option (List Nat)) : VfsFile → OpenResult
  | .Loose p =>
    match disk p with
    | some d => .ok d
    | none => .err .IOError
  | .Archive p a =>
    match a.archive with
    | .Tes3 entries =>
      match lookupAssoc entries p with
      | none => .panicked
      | some bytes => .ok bytes
    | .Tes4 dirs =>
      match tes4_keys p with
      | .error k => .err k
      | .ok (dk, fk) =>
        match lookupAssoc dirs dk with
        | none => .panicked
        | some dir =>
          match lookupAssoc dir fk with
          | none => .panicked
          | some file =>
            if file.compressed then
              if file.decompressOk then .ok file.data else .err .InvalidData
            else .ok file.data
    | .Fo4 entries =>
      match lookupAssoc entries p with
      | none => .panicked
      | some chunks => .ok chunks.flatten

/-- **C3 (falsified — code bug).**  When the intra-archive path is absent
from the parent archive's decoded directory, `open` does not return a
`NotFound` error as specified: in all three formats the code `unwrap`s the
lookup result and panics (aborting the program).  Evaluated here on a TES3
archive missing the key, a TES4 archive missing the directory key, a TES4
archive missing the file key within a present directory, and a FO4 archive
missing the key. -/
theorem open_missing_key_panics :
    VfsFile.open (fun _ => none)
      (VfsFile.Archive [97] ⟨[120], TypedArchive.Tes3 [([98], [1])]⟩) =
        OpenResult.panicked ∧
    VfsFile.open (fun _ => none)
      (VfsFile.Archive [100, 47, 102] ⟨[120], TypedArchive.Tes4 []⟩) =
        OpenResult.panicked ∧
    VfsFile.open (fun _ => none)
      (VfsFile.Archive [100, 47, 102]
        ⟨[120], TypedArchive.Tes4 [([100], [([103], ⟨false, true, [5]⟩)])]⟩) =
        OpenResult.panicked ∧
    VfsFile.open (fun _ => none)
      (VfsFile.Archive [97] ⟨[120], TypedArchive.Fo4 [([98], [[1]])]⟩) =
        OpenResult.panicked ∧
    OpenResult.panicked ≠ OpenResult.err ErrorKind.NotFound := by
  decide

/-!
### The FO4 chunked reader (`Fo4FileReader`,
vfstool_lib/src/vfs_file.rs:27-84)
-/

/-- `Fo4FileReader` (vfstool_lib/src/vfs_file.rs:27-31): the not yet
visited chunks, the current chunk, and the offset within it. -/
structure Fo4FileReader where
  chunks : List (List Nat)
  current_chunk : Option (List Nat)
  position : Nat
  deriving DecidableEq

/-- `Fo4FileReader::new` (vfstool_lib/src/vfs_file.rs:37-50): start on the
first chunk at offset 0. -/
def Fo4FileReader.new (file : List (List Nat)) : Fo4FileReader :=
  match file with
  | [] => ⟨[], none, 0⟩
  | c :: cs => ⟨cs, some c, 0⟩

/-- The loop body of `Fo4FileReader::read`
(vfstool_lib/src/vfs_file.rs:55-82): while the buffer is not full, copy
from the current chunk, advancing to the next chunk when the current one is
exhausted and returning when no chunks remain.  Returns the read count, the
bytes written to the buffer, and the reader's final state. -/
def readAux (buflen : Nat) (st : Fo4FileReader) (total : Nat) (acc : List Nat) :
    Nat × List Nat × Fo4FileReader :=
  if h : total < buflen then
    match hc : st.current_chunk with
    | some c =>
      if hp : st.position < c.length then
        let to_read := min (buflen - total) (c.length - st.position)
        readAux buflen ⟨st.chunks, some c, st.position + to_read⟩ (total + to_read)
          (acc ++ (c.drop st.position).take to_read)
      else
        match hcs : st.chunks with
        | [] => (total, acc, ⟨[], none, 0⟩)
        | c2 :: rest => readAux buflen ⟨rest, some c2, 0⟩ total acc
    | none =>
      match hcs : st.chunks with
      | [] => (total, acc, ⟨[], none, 0⟩)
      | c2 :: rest => readAux buflen ⟨rest, some c2, 0⟩ total acc
  else (total, acc, st)
  termination_by (buflen - total, st.chunks.length)
  decreasing_by
    · apply Prod.Lex.left
      omega
    · apply Prod.Lex.right
      simp [hcs]
    · apply Prod.Lex.right
      simp [hcs]

/-- `Fo4FileReader::read` (vfstool_lib/src/vfs_file.rs:55-83): run the loop
with an empty buffer written so far. -/
def Fo4FileReader.read (st : Fo4FileReader) (buflen : Nat) :
    Nat × List Nat × Fo4FileReader :=
  readAux buflen st 0 []

/-- The bytes remaining in the current chunk. -/
def currentRem (st : Fo4FileReader) : List Nat :=
  match st.current_chunk with
  | some c => c.drop st.position
  | none => []

/-- The logical byte stream still to be delivered by the reader: the rest
of the current chunk, then the remaining chunks in order. -/
def flattenRem (st : Fo4FileReader) : List Nat :=
  currentRem st ++ st.chunks.flatten

theorem readAux_spec (buflen : Nat) (st : Fo4FileReader) (total : Nat)
    (acc : List Nat) :
    (readAux buflen st total acc).1 =
      total + min (buflen - total) (flattenRem st).length ∧
    (readAux buflen st total acc).2.1 =
      acc ++ (flattenRem st).take (min (buflen - total) (flattenRem st).length) ∧
    flattenRem (readAux buflen st total acc).2.2 =
      (flattenRem st).drop (min (buflen - total) (flattenRem st).length) := by
  induction st, total, acc using readAux.induct buflen with
  | case1 st total acc h c hc hp m ih =>
    have hm0 : m = min (buflen - total) (c.length - st.position) := rfl
    have heq : readAux buflen st total acc =
        readAux buflen ⟨st.chunks, some c, st.position + m⟩ (total + m)
          (acc ++ (c.drop st.position).take m) := by
      conv_lhs => rw [readAux]
      simp only [dif_pos h]
      split
      next c2 heq2 =>
        rw [hc] at heq2
        injection heq2 with hcc
        subst hcc
        rw [dif_pos hp]
      next heq2 =>
        rw [hc] at heq2
        simp at heq2
    have hflat : flattenRem st = c.drop st.position ++ st.chunks.flatten := by
      simp [flattenRem, currentRem, hc]
    have hm : m ≤ (c.drop st.position).length := by
      rw [hm0]
      simp [List.length_drop]
    have hstep : flattenRem (⟨st.chunks, some c, st.position + m⟩ : Fo4FileReader) =
        (flattenRem st).drop m := by
      rw [hflat, List.drop_append_of_le_length hm]
      show c.drop (st.position + m) ++ st.chunks.flatten =
        (c.drop st.position).drop m ++ st.chunks.flatten
      rw [List.drop_drop, Nat.add_comm st.position m]
    have hlen : (flattenRem st).length =
        (c.length - st.position) + st.chunks.flatten.length := by
      rw [hflat]
      simp
    have hmin : min (buflen - total) (flattenRem st).length =
        m + min (buflen - (total + m))
          (flattenRem (⟨st.chunks, some c, st.position + m⟩ : Fo4FileReader)).length := by
      rw [hstep, List.length_drop, hlen, hm0]
      clear ih heq hstep hflat hm hlen hm0
      omega
    refine ⟨?_, ?_, ?_⟩
    · rw [heq, ih.1, hmin, Nat.add_assoc]
    · rw [heq, ih.2.1, hmin, List.take_add, List.append_assoc]
      congr 2
      · rw [hflat, List.take_append_of_le_length hm]
      · rw [hstep]
    · rw [heq, ih.2.2, hmin, hstep, List.drop_drop]
  | case2 st total acc h c hc hp hcs =>
    have heq : readAux buflen st total acc =
        (total, acc, (⟨[], none, 0⟩ : Fo4FileReader)) := by
      conv_lhs => rw [readAux]
      simp only [dif_pos h]
      split
      next c2 heq2 =>
        rw [hc] at heq2
        injection heq2 with hcc
        subst hcc
        rw [dif_neg hp]
        split
        next => rfl
        next c3 rest heq3 =>
          rw [hcs] at heq3
          simp at heq3
      next heq2 =>
        rw [hc] at heq2
        simp at heq2
    have hflat : flattenRem st = [] := by
      simp only [flattenRem, currentRem, hc, hcs]
      simp [List.drop_eq_nil_of_le (by omega : c.length ≤ st.position)]
    rw [heq, hflat]
    simp [flattenRem, currentRem]
  | case3 st total acc h c hc hp c2 rest hcs ih =>
    have heq : readAux buflen st total acc =
        readAux buflen ⟨rest, some c2, 0⟩ total acc := by
      conv_lhs => rw [readAux]
      simp only [dif_pos h]
      split
      next c3 heq2 =>
        rw [hc] at heq2
        injection heq2 with hcc
        subst hcc
        rw [dif_neg hp]
        split
        next heq3 =>
          rw [hcs] at heq3
          simp at heq3
        next c4 rest2 heq3 =>
          rw [hcs] at heq3
          injection heq3 with h1 h2
          subst h1
          subst h2
          rfl
      next heq2 =>
        rw [hc] at heq2
        simp at heq2
    have hflat : flattenRem st =
        flattenRem (⟨rest, some c2, 0⟩ : Fo4FileReader) := by
      simp only [flattenRem, currentRem, hc, hcs]
      simp [List.drop_eq_nil_of_le (by omega : c.length ≤ st.position)]
    rw [heq, hflat]
    exact ih
  | case4 st total acc h hc hcs =>
    have heq : readAux buflen st total acc =
        (total, acc, (⟨[], none, 0⟩ : Fo4FileReader)) := by
      conv_lhs => rw [readAux]
      simp only [dif_pos h]
      split
      next c2 heq2 =>
        rw [hc] at heq2
        simp at heq2
      next heq2 =>
        split
        next => rfl
        next c3 rest heq3 =>
          rw [hcs] at heq3
          simp at heq3
    have hflat : flattenRem st = [] := by
      simp [flattenRem, currentRem, hc, hcs]
    rw [heq, hflat]
    simp [flattenRem, currentRem]
  | case5 st total acc h hc c2 rest hcs ih =>
    have heq : readAux buflen st total acc =
        readAux buflen ⟨rest, some c2, 0⟩ total acc := by
      conv_lhs => rw [readAux]
      simp only [dif_pos h]
      split
      next c3 heq2 =>
        rw [hc] at heq2
        simp at heq2
      next heq2 =>
        split
        next heq3 =>
          rw [hcs] at heq3
          simp at heq3
        next c4 rest2 heq3 =>
          rw [hcs] at heq3
          injection heq3 with h1 h2
          subst h1
          subst h2
          rfl
    have hflat : flattenRem st =
        flattenRem (⟨rest, some c2, 0⟩ : Fo4FileReader) := by
      simp [flattenRem, currentRem, hc, hcs]
    rw [heq, hflat]
    exact ih
  | case6 st total acc h =>
    have heq : readAux buflen st total acc = (total, acc, st) := by
      conv_lhs => rw [readAux]
      simp only [dif_neg h]
    have hz : buflen - total = 0 := by omega
    rw [heq, hz]
    simp

/-- The three-chunk FO4 file of the specification's chunked-read scenario:
chunks of 100, 50 and 25 bytes. -/
def fo4Example : Fo4FileReader :=
  Fo4FileReader.new [List.replicate 100 1, List.replicate 50 2, List.replicate 25 3]

/-- **C7.** The FO4 reader presents the chunk sequence as one contiguous
byte stream: every `read` returns `min (buf.len()) (bytes remaining)`, the
bytes delivered are the next prefix of the concatenated remaining chunks
(so a single read spans chunk boundaries in chunk order), and the stream
advances by exactly the bytes read — hence once all chunks are exhausted
every subsequent read returns 0.  In particular, for chunks of 100, 50 and
25 bytes, one read with a 200-byte buffer returns 175 bytes and the next
read returns 0. -/
theorem fo4_reader_contiguous :
    (∀ (st : Fo4FileReader) (n : Nat),
      (st.read n).1 = min n (flattenRem st).length ∧
      (st.read n).2.1 = (flattenRem st).take (min n (flattenRem st).length) ∧
      flattenRem (st.read n).2.2 =
        (flattenRem st).drop (min n (flattenRem st).length)) ∧
    (fo4Example.read 200).1 = 175 ∧
    ((fo4Example.read 200).2.2.read 200).1 = 0 := by
  have hgen : ∀ (st : Fo4FileReader) (n : Nat),
      (st.read n).1 = min n (flattenRem st).length ∧
      (st.read n).2.1 = (flattenRem st).take (min n (flattenRem st).length) ∧
      flattenRem (st.read n).2.2 =
        (flattenRem st).drop (min n (flattenRem st).length) := by
    intro st n
    have h := readAux_spec n st 0 []
    simpa [Fo4FileReader.read] using h
  have hlen0 : (flattenRem fo4Example).length = 175 := by
    show (List.drop 0 (List.replicate 100 1) ++
      ([List.replicate 50 2, List.replicate 25 3]).flatten).length = 175
    simp only [List.length_append, List.length_drop, List.length_replicate,
      List.flatten_cons, List.flatten_nil, List.append_nil, List.drop_zero]
  refine ⟨hgen, ?_, ?_⟩
  · rw [(hgen fo4Example 200).1, hlen0]
    omega
  · rw [(hgen (fo4Example.read 200).2.2 200).1,
      (hgen fo4Example 200).2.2, List.length_drop, hlen0]
    omega

/-- **C9.** `tree_filtered` with the always-true predicate contains exactly
the same files as the unfiltered tree, and with the always-false predicate
every remaining node carries an empty file list. -/
theorem tree_filtered_true_false (t : DisplayTree) :
    treeFilesList (tree_filtered t (fun _ => true)) = treeFilesList t ∧
    (tree_filtered t (fun _ => false)).all (fun kd => kd.2.allFilesEmpty) = true := by
  constructor
  · unfold treeFilesList tree_filtered
    induction t with
    | nil => rfl
    | cons kd rest ih =>
      simp only [List.map_cons, List.flatMap_cons, ih]
      rw [DirectoryNode.filter_true_filesList kd.2]
  · unfold tree_filtered
    apply List.all_eq_true.mpr
    intro kd hkd
    rcases List.mem_map.mp hkd with ⟨x, hx, hxe⟩
    rw [← hxe]
    exact DirectoryNode.filter_false_allFilesEmpty x.2

end Vfstool
